import Mathlib

/-!
Verification of the `Drivechain` peg-logic component of the
`bitcoin-jsonrpsee` crate (`src/lib.rs`, with client data types from
`src/client.rs`): deposit-output reconstruction, withdrawal-status
aggregation, BMM verification and next-block polling.

The embedding is shallow.  Block hashes, txids and satoshi amounts are
natural numbers.  The external mainchain RPC endpoint is modelled by
passing its responses as explicit arguments; the external decoding
libraries (`hex::decode` composed with
`bitcoin::Transaction::consensus_decode`) are modelled by a
`String → DecodeResult` argument distinguishing the two failure stages.
A Rust panic (out-of-bounds `Vec` indexing) is modelled by the
distinguished outcome `ScanResult.panicked`.
-/

namespace BitcoinJsonrpsee

/-- Mainchain block hash (`bitcoin::BlockHash`), modelled as a natural. -/
abbrev BlockHash := Nat

/-- Transaction id (`bitcoin::Txid`), modelled as a natural. -/
abbrev Txid := Nat

/-- A transaction output (`bitcoin::TxOut`); only the `value` field is read
by the core. -/
structure TxOut where
  value : Nat
deriving DecidableEq

/-- A decoded `bitcoin::Transaction`; only the `output` list and the txid
are read by the core. -/
structure Tx where
  txid : Txid
  output : List TxOut
deriving DecidableEq

/-- `client::Deposit`: a raw deposit candidate returned by
`listsidechaindepositsbyblock`. -/
structure Deposit where
  hashblock : BlockHash
  nburnindex : Nat
  ntx : Nat
  strdest : String
  txhex : String
deriving DecidableEq

/-- `Output` from `lib.rs`. -/
structure Output where
  address : String
  value : Nat
deriving DecidableEq

/-- `bitcoin::OutPoint`. -/
structure OutPoint where
  txid : Txid
  vout : Nat
deriving DecidableEq

/-- `DepositInfo` from `lib.rs`. -/
structure DepositInfo where
  block_hash : BlockHash
  tx_index : Nat
  outpoint : OutPoint
  output : Output
deriving DecidableEq

/-- `WithdrawalBundleStatus` from `lib.rs`. -/
inductive WithdrawalBundleStatus where
  | failed
  | confirmed
deriving DecidableEq

/-- `client::SpentWithdrawal`. -/
structure SpentWithdrawal where
  nsidechain : Nat
  hash : Txid
  hashblock : BlockHash
deriving DecidableEq

/-- `client::FailedWithdrawal`. -/
structure FailedWithdrawal where
  nsidechain : Nat
  hash : Txid
deriving DecidableEq

/-- `client::Block` (a `getblock` response): only the fields the core
reads are modelled; the remaining fields (sizes, difficulty, ...) are
pass-through payload. -/
structure Block where
  hash : BlockHash
  nextblockhash : Option BlockHash
deriving DecidableEq

/-- `client::BlockCommitment`: array items returned by
`getblockcommitments`; commitments are 32-byte values modelled as byte
lists. -/
inductive BlockCommitment where
  | bmmHStar (commitment : List Nat) (sidechain_id : Nat) (prev_bytes : List Nat)
  | scdbUpdateBytes (script : String)
  | sidechainActivationAck (commitment : List Nat)
  | sidechainProposal
  | withdrawalBundleHash (commitment : List Nat) (sidechain_id : Nat)
  | witnessCommitment (script : String)
deriving DecidableEq

/-- `BlockNotFoundError` from `lib.rs`: a value-carrying domain signal. -/
structure BlockNotFoundError where
  hash : BlockHash
deriving DecidableEq

/-- Modelled from the external `jsonrpsee` library:
`jsonrpsee::types::error::ErrorCode`. -/
inductive ErrorCode where
  | parseError
  | oversizedRequest
  | invalidRequest
  | methodNotFound
  | serverIsBusy
  | invalidParams
  | internalError
  | serverError (code : Int)
deriving DecidableEq

/-- Modelled from the external `jsonrpsee` library:
`impl From<i32> for ErrorCode`; every code outside the reserved set maps
to `serverError code`. -/
def ErrorCode.fromCode (code : Int) : ErrorCode :=
  if code = -32700 then .parseError
  else if code = -32701 then .oversizedRequest
  else if code = -32600 then .invalidRequest
  else if code = -32601 then .methodNotFound
  else if code = -32604 then .serverIsBusy
  else if code = -32602 then .invalidParams
  else if code = -32603 then .internalError
  else .serverError code

/-- Modelled from the external `jsonrpsee` library:
`jsonrpsee::core::Error`, split into application-level `Call` errors
(carrying code and message) and every other (transport, parse, ...)
failure. -/
inductive JsonrpseeError where
  | call (code : Int) (message : String)
  | other
deriving DecidableEq

/-- The crate's `Error` enum; only the `Jsonrpsee` variant is reachable
in the operations modelled here (decode failures are separate
`ScanResult` outcomes). -/
inductive Error where
  | jsonrpsee (source : JsonrpseeError) (main_addr : String)
deriving DecidableEq

/-- The `Drivechain` handle: connection/auth configuration only (the
HTTP client itself is external). -/
structure Drivechain where
  sidechain_number : Nat
  main_addr : String
deriving DecidableEq

/-- Result of decoding one candidate's raw transaction hex:
`hex::decode` failure (`Error::Hex`), consensus-decode failure
(`Error::BitcoinConsensusEncode`), or a decoded transaction. -/
inductive DecodeResult where
  | ok (tx : Tx)
  | hexErr
  | consensusErr
deriving DecidableEq

/-- Outcome of the `get_deposit_outputs` scan over the candidate list:
normal return, early return with a hex decode error, early return with a
consensus decode error, or a Rust panic from out-of-bounds indexing of
the decoded transaction's output list. -/
inductive ScanResult where
  | ok (deposit_infos : List DepositInfo) (last_block_hash : Option BlockHash)
  | hexError
  | consensusDecodeError
  | panicked
deriving DecidableEq

/-- `Drivechain::verify_bmm` (`lib.rs` lines 63-86), with the endpoint's
`verifybmm` response passed explicitly (the successful payload is an
opaque acknowledgment). -/
def Drivechain.verify_bmm (dc : Drivechain)
    (resp : Except JsonrpseeError Unit) : Except Error Bool :=
  match resp with
  | .ok _ => .ok true
  | .error (.call code msg) =>
    if ErrorCode.fromCode code = ErrorCode.serverError (-1)
        ∧ msg = "h* not found in block" then
      .ok false
    else
      .error (.jsonrpsee (.call code msg) dc.main_addr)
  | .error .other => .error (.jsonrpsee .other dc.main_addr)

/-- The poll loop inside `Drivechain::verify_bmm_next_block`
(`lib.rs` lines 96-110).  The endpoint's `getblock prev_main_hash`
response at poll iteration `n` is `getblockResp n`; `fuel` bounds how
many iterations are observed, and `none` means the loop is still
polling after `fuel` iterations (each real iteration ends with a sleep
of the caller-supplied interval, irrelevant to the value computed). -/
def pollLoop (getblockResp : Nat → Except JsonrpseeError Block) :
    Nat → Nat → Option (Except JsonrpseeError BlockHash)
  | 0, _ => none
  | fuel + 1, n =>
    match getblockResp n with
    | .error e => some (.error e)
    | .ok b =>
      match b.nextblockhash with
      | some h => some (.ok h)
      | none => pollLoop getblockResp fuel (n + 1)

/-- `Drivechain::verify_bmm_next_block` (`lib.rs` lines 90-113): poll
until the block for `prev_main_hash` reports a `nextblockhash`, then run
the single `verify_bmm` check against that successor; `verifybmmResp h`
is the endpoint's `verifybmm` response for successor block `h`.
`none` means the call has not returned within `fuel` poll iterations. -/
def Drivechain.verify_bmm_next_block (dc : Drivechain)
    (getblockResp : Nat → Except JsonrpseeError Block)
    (verifybmmResp : BlockHash → Except JsonrpseeError Unit)
    (fuel : Nat) : Option (Except Error (Bool × BlockHash)) :=
  match pollLoop getblockResp fuel 0 with
  | none => none
  | some (.error e) => some (.error (.jsonrpsee e dc.main_addr))
  | some (.ok main_hash) =>
    some ((dc.verify_bmm (verifybmmResp main_hash)).map fun res => (res, main_hash))

/-- `Drivechain::get_block_commitments` (`lib.rs` lines 126-144), with
the endpoint's `getblockcommitments` response passed explicitly. -/
def Drivechain.get_block_commitments (dc : Drivechain) (main_hash : BlockHash)
    (resp : Except JsonrpseeError (List (Nat × BlockCommitment))) :
    Except Error (Except BlockNotFoundError (List (Nat × BlockCommitment))) :=
  match resp with
  | .ok commitments => .ok (.ok commitments)
  | .error (.call code msg) =>
    if ErrorCode.fromCode code = ErrorCode.serverError (-1)
        ∧ msg = "Block not found" then
      .ok (.error ⟨main_hash⟩)
    else
      .error (.jsonrpsee (.call code msg) dc.main_addr)
  | .error .other => .error (.jsonrpsee .other dc.main_addr)

/-- The burn-output total of a candidate: decode its transaction and read
the value at its burn index; `none` when decoding fails or the index is
out of range. -/
def candTotal (decode : String → DecodeResult) (d : Deposit) : Option Nat :=
  match decode d.txhex with
  | .ok tx =>
    match tx.output[d.nburnindex]? with
    | some o => some o.value
    | none => none
  | _ => none

/-- The `for deposit in &deposits` loop of
`Drivechain::get_deposit_outputs` (`lib.rs` lines 175-219), with the
running state (`last_total`, `last_block_hash`, the `deposit_infos`
vector) passed explicitly.  Indexing `transaction.output` out of range
panics in both the start-block branch and the normal branch. -/
def depositScanLoop (decode : String → DecodeResult) (start : Option BlockHash) :
    Nat → Option BlockHash → List DepositInfo → List Deposit → ScanResult
  | _, last_block_hash, acc, [] => .ok acc last_block_hash
  | last_total, last_block_hash, acc, d :: ds =>
    match decode d.txhex with
    | .hexErr => .hexError
    | .consensusErr => .consensusDecodeError
    | .ok tx =>
      if start = some d.hashblock then
        match tx.output[d.nburnindex]? with
        | none => .panicked
        | some o => depositScanLoop decode start o.value last_block_hash acc ds
      else
        match tx.output[d.nburnindex]? with
        | none => .panicked
        | some o =>
          if o.value < last_total then
            depositScanLoop decode start o.value last_block_hash acc ds
          else
            depositScanLoop decode start o.value (some d.hashblock)
              (acc ++ [{ block_hash := d.hashblock, tx_index := d.ntx,
                         outpoint := { txid := tx.txid, vout := d.nburnindex },
                         output := { address := d.strdest,
                                     value := o.value - last_total } }]) ds

/-- `Drivechain::get_deposit_outputs` (`lib.rs` lines 159-220): the pure
core of the scan, with the candidate list (the
`listsidechaindepositsbyblock` response) and the transaction decoder
passed explicitly.  State starts at `last_total = 0`,
`last_block_hash = None`, empty `deposit_infos`. -/
def Drivechain.get_deposit_outputs (_dc : Drivechain)
    (decode : String → DecodeResult) (deposits : List Deposit)
    (start : Option BlockHash) : ScanResult :=
  depositScanLoop decode start 0 none [] deposits

/-- `Drivechain::get_withdrawal_bundle_statuses` (`lib.rs` lines
222-252): push spent withdrawals matching the configured sidechain
number as `Confirmed`, then every failed withdrawal as `Failed`. -/
def Drivechain.get_withdrawal_bundle_statuses (dc : Drivechain)
    (spent_withdrawals : List SpentWithdrawal)
    (failed_withdrawals : List FailedWithdrawal) :
    List (Txid × WithdrawalBundleStatus) :=
  let statuses := spent_withdrawals.foldl
    (fun acc spent =>
      if spent.nsidechain = dc.sidechain_number then
        acc ++ [(spent.hash, WithdrawalBundleStatus.confirmed)]
      else acc) []
  failed_withdrawals.foldl
    (fun acc failed => acc ++ [(failed.hash, WithdrawalBundleStatus.failed)])
    statuses

/-- The number of candidates a scan treats as already accounted for by
the start bound, for a list whose start-bound matches occur only at the
front: one when the first candidate's block hash equals the bound, zero
otherwise. -/
def scanStartSkips (start : Option BlockHash) : List Deposit → Nat
  | [] => 0
  | d :: _ => if start = some d.hashblock then 1 else 0

/-- The initial cumulative total of a scan, per the spec sentence: the
first candidate's burn total when the start bound matches it, zero
otherwise.  (`f` gives each candidate's burn-output total.) -/
def scanInitialTotal (f : Deposit → Nat) (start : Option BlockHash) :
    List Deposit → Nat
  | [] => 0
  | d :: _ => if start = some d.hashblock then f d else 0

/-! ### Concrete fixtures used by witnesses and counterexamples -/

/-- A concrete client handle for sidechain number 1. -/
def dcEx : Drivechain := ⟨1, "127.0.0.1:8332"⟩

/-- Endpoint fixture for the poll loop: no successor at iteration 0, a
successor (block 101) from iteration 1 on. -/
def getRespEx : Nat → Except JsonrpseeError Block := fun k =>
  if k = 0 then .ok ⟨100, none⟩ else .ok ⟨100, some 101⟩

/-- Decoder fixture: three transactions with burn totals 10, 20, 30 at
output index 0; the string "c1" is valid hex with consensus-undecodable
bytes; every other hex string is malformed hex. -/
def decodeEx : String → DecodeResult := fun s =>
  if s = "t1" then .ok ⟨21, [⟨10⟩]⟩
  else if s = "t2" then .ok ⟨22, [⟨20⟩]⟩
  else if s = "t3" then .ok ⟨23, [⟨30⟩]⟩
  else if s = "c1" then .consensusErr
  else .hexErr

/-- Candidate fixtures in blocks 1, 2, 3 referencing `decodeEx`. -/
def dEx1 : Deposit := ⟨1, 0, 0, "addr1", "t1"⟩

def dEx2 : Deposit := ⟨2, 0, 1, "addr2", "t2"⟩

def dEx3 : Deposit := ⟨3, 0, 2, "addr3", "t3"⟩

/-- Decoder fixture for the spec's example scan: burn totals 100, 100,
250 at output index 0. -/
def decodeB : String → DecodeResult := fun s =>
  if s = "u1" then .ok ⟨11, [⟨100⟩]⟩
  else if s = "u2" then .ok ⟨12, [⟨100⟩]⟩
  else if s = "u3" then .ok ⟨13, [⟨250⟩]⟩
  else .hexErr

/-- Candidate fixtures in blocks 1, 2, 3 referencing `decodeB`. -/
def bEx1 : Deposit := ⟨1, 0, 0, "addr1", "u1"⟩

def bEx2 : Deposit := ⟨2, 0, 1, "addr2", "u2"⟩

def bEx3 : Deposit := ⟨3, 0, 2, "addr3", "u3"⟩

/-! ### Helper lemmas -/

theorem spent_foldl_eq (sn : Nat) (spent : List SpentWithdrawal)
    (acc : List (Txid × WithdrawalBundleStatus)) :
    spent.foldl
      (fun acc s =>
        if s.nsidechain = sn then
          acc ++ [(s.hash, WithdrawalBundleStatus.confirmed)]
        else acc) acc
      = acc ++ (spent.filter fun s => s.nsidechain == sn).map
          (fun s => (s.hash, WithdrawalBundleStatus.confirmed)) := by
  induction spent generalizing acc with
  | nil => simp
  | cons s rest ih =>
    by_cases h : s.nsidechain = sn
    · simp [List.foldl_cons, h, ih, List.filter_cons]
    · simp [List.foldl_cons, h, ih, List.filter_cons]

theorem failed_foldl_eq (failed : List FailedWithdrawal)
    (acc : List (Txid × WithdrawalBundleStatus)) :
    failed.foldl
      (fun acc f => acc ++ [(f.hash, WithdrawalBundleStatus.failed)]) acc
      = acc ++ failed.map (fun f => (f.hash, WithdrawalBundleStatus.failed)) := by
  induction failed generalizing acc with
  | nil => simp
  | cons f rest ih => simp [List.foldl_cons, ih]

theorem fromCode_eq_serverError_neg_one (c : Int) :
    ErrorCode.fromCode c = ErrorCode.serverError (-1) ↔ c = -1 := by
  unfold ErrorCode.fromCode
  split_ifs <;> simp_all

theorem candTotal_eq_some {decode : String → DecodeResult} {d : Deposit}
    {t : Nat} (h : candTotal decode d = some t) :
    ∃ tx o, decode d.txhex = .ok tx ∧
      tx.output[d.nburnindex]? = some o ∧ o.value = t := by
  unfold candTotal at h
  cases hdc : decode d.txhex with
  | ok tx =>
    simp only [hdc] at h
    cases hix : tx.output[d.nburnindex]? with
    | some o =>
      simp only [hix] at h
      exact ⟨tx, o, rfl, hix, by simpa using h⟩
    | none => simp [hix] at h
  | hexErr => simp [hdc] at h
  | consensusErr => simp [hdc] at h

theorem depositScanLoop_cons_start {decode : String → DecodeResult}
    {start : Option BlockHash} {d : Deposit} {tx : Tx} {o : TxOut}
    (hstart : start = some d.hashblock) (hdec : decode d.txhex = .ok tx)
    (hidx : tx.output[d.nburnindex]? = some o)
    (lt : Nat) (lb : Option BlockHash) (acc : List DepositInfo)
    (ds : List Deposit) :
    depositScanLoop decode start lt lb acc (d :: ds)
      = depositScanLoop decode start o.value lb acc ds := by
  simp [depositScanLoop, hdec, hstart, hidx]

theorem depositScanLoop_cons_skip {decode : String → DecodeResult}
    {start : Option BlockHash} {d : Deposit} {tx : Tx} {o : TxOut}
    (hstart : start ≠ some d.hashblock) (hdec : decode d.txhex = .ok tx)
    (hidx : tx.output[d.nburnindex]? = some o)
    {lt : Nat} (hlt : o.value < lt) (lb : Option BlockHash)
    (acc : List DepositInfo) (ds : List Deposit) :
    depositScanLoop decode start lt lb acc (d :: ds)
      = depositScanLoop decode start o.value lb acc ds := by
  simp [depositScanLoop, hdec, hstart, hidx, hlt]

theorem depositScanLoop_cons_emit {decode : String → DecodeResult}
    {start : Option BlockHash} {d : Deposit} {tx : Tx} {o : TxOut}
    (hstart : start ≠ some d.hashblock) (hdec : decode d.txhex = .ok tx)
    (hidx : tx.output[d.nburnindex]? = some o)
    {lt : Nat} (hge : ¬ o.value < lt) (lb : Option BlockHash)
    (acc : List DepositInfo) (ds : List Deposit) :
    depositScanLoop decode start lt lb acc (d :: ds)
      = depositScanLoop decode start o.value (some d.hashblock)
          (acc ++ [{ block_hash := d.hashblock, tx_index := d.ntx,
                     outpoint := { txid := tx.txid, vout := d.nburnindex },
                     output := { address := d.strdest,
                                 value := o.value - lt } }]) ds := by
  simp [depositScanLoop, hdec, hstart, hidx, hge]

theorem depositScanLoop_cons_panic {decode : String → DecodeResult}
    {d : Deposit} {tx : Tx} (start : Option BlockHash)
    (hdec : decode d.txhex = .ok tx)
    (hidx : tx.output[d.nburnindex]? = none)
    (lt : Nat) (lb : Option BlockHash) (acc : List DepositInfo)
    (ds : List Deposit) :
    depositScanLoop decode start lt lb acc (d :: ds) = .panicked := by
  by_cases hs : start = some d.hashblock <;>
    simp [depositScanLoop, hdec, hs, hidx]

theorem chain_le_getLastD :
    ∀ (l : List Nat) (a : Nat), List.Chain (· ≤ ·) a l → a ≤ l.getLastD a := by
  intro l
  induction l with
  | nil => intro a _; exact le_refl a
  | cons b l ih =>
    intro a h
    cases h with
    | cons hab hl =>
      calc a ≤ b := hab
        _ ≤ (b :: l).getLastD a := by
            rw [List.getLastD_cons]
            exact ih b hl

theorem depositScanLoop_no_start_emit (decode : String → DecodeResult)
    (s : BlockHash) :
    ∀ (ds : List Deposit) (lt : Nat) (lb : Option BlockHash)
      (acc infos : List DepositInfo) (lb' : Option BlockHash),
      depositScanLoop decode (some s) lt lb acc ds = .ok infos lb' →
      (∀ i ∈ acc, i.block_hash ≠ s) →
      ∀ i ∈ infos, i.block_hash ≠ s := by
  intro ds
  induction ds with
  | nil =>
    intro lt lb acc infos lb' h hacc
    simp only [depositScanLoop, ScanResult.ok.injEq] at h
    obtain ⟨rfl, rfl⟩ := h
    exact hacc
  | cons d rest ih =>
    intro lt lb acc infos lb' h hacc
    cases hdec : decode d.txhex with
    | hexErr => simp [depositScanLoop, hdec] at h
    | consensusErr => simp [depositScanLoop, hdec] at h
    | ok tx =>
      by_cases hs : (some s : Option BlockHash) = some d.hashblock
      · cases hidx : tx.output[d.nburnindex]? with
        | none => rw [depositScanLoop_cons_panic _ hdec hidx] at h; simp at h
        | some o =>
          rw [depositScanLoop_cons_start hs hdec hidx] at h
          exact ih o.value lb acc infos lb' h hacc
      · cases hidx : tx.output[d.nburnindex]? with
        | none => rw [depositScanLoop_cons_panic _ hdec hidx] at h; simp at h
        | some o =>
          by_cases hlt : o.value < lt
          · rw [depositScanLoop_cons_skip hs hdec hidx hlt] at h
            exact ih o.value lb acc infos lb' h hacc
          · rw [depositScanLoop_cons_emit hs hdec hidx hlt] at h
            refine ih o.value (some d.hashblock) _ infos lb' h ?_
            intro i hi
            rcases List.mem_append.1 hi with hi | hi
            · exact hacc i hi
            · rw [List.mem_singleton] at hi
              subst hi
              intro hcontra
              exact hs (congrArg some hcontra.symm)

theorem depositScanLoop_watermark (decode : String → DecodeResult)
    (start : Option BlockHash) :
    ∀ (ds : List Deposit) (lt : Nat) (lb : Option BlockHash)
      (acc infos : List DepositInfo) (lb' : Option BlockHash),
      lb = acc.getLast?.map (fun i => i.block_hash) →
      depositScanLoop decode start lt lb acc ds = .ok infos lb' →
      lb' = infos.getLast?.map (fun i => i.block_hash) := by
  intro ds
  induction ds with
  | nil =>
    intro lt lb acc infos lb' hlb h
    simp only [depositScanLoop, ScanResult.ok.injEq] at h
    obtain ⟨rfl, rfl⟩ := h
    exact hlb
  | cons d rest ih =>
    intro lt lb acc infos lb' hlb h
    cases hdec : decode d.txhex with
    | hexErr => simp [depositScanLoop, hdec] at h
    | consensusErr => simp [depositScanLoop, hdec] at h
    | ok tx =>
      cases hidx : tx.output[d.nburnindex]? with
      | none => rw [depositScanLoop_cons_panic _ hdec hidx] at h; simp at h
      | some o =>
        by_cases hs : start = some d.hashblock
        · rw [depositScanLoop_cons_start hs hdec hidx] at h
          exact ih o.value lb acc infos lb' hlb h
        · by_cases hlt : o.value < lt
          · rw [depositScanLoop_cons_skip hs hdec hidx hlt] at h
            exact ih o.value lb acc infos lb' hlb h
          · rw [depositScanLoop_cons_emit hs hdec hidx hlt] at h
            exact ih o.value (some d.hashblock) _ infos lb' (by simp) h

theorem depositScanLoop_prefix_step (decode : String → DecodeResult)
    (start : Option BlockHash) :
    ∀ (pre suffix : List Deposit) (lt : Nat) (lb : Option BlockHash)
      (acc : List DepositInfo),
      (∀ e ∈ pre, (candTotal decode e).isSome) →
      ∃ lt' lb' acc',
        depositScanLoop decode start lt lb acc (pre ++ suffix)
          = depositScanLoop decode start lt' lb' acc' suffix := by
  intro pre
  induction pre with
  | nil => intro suffix lt lb acc _; exact ⟨lt, lb, acc, rfl⟩
  | cons e pre ih =>
    intro suffix lt lb acc hpre
    have he : (candTotal decode e).isSome :=
      hpre e (List.mem_cons_self e pre)
    obtain ⟨t, ht⟩ := Option.isSome_iff_exists.1 he
    obtain ⟨tx, o, hdec, hidx, hval⟩ := candTotal_eq_some ht
    have hpre' : ∀ x ∈ pre, (candTotal decode x).isSome :=
      fun x hx => hpre x (List.mem_cons_of_mem e hx)
    rw [List.cons_append]
    by_cases hs : start = some e.hashblock
    · rw [depositScanLoop_cons_start hs hdec hidx]
      exact ih suffix o.value lb acc hpre'
    · by_cases hlt : o.value < lt
      · rw [depositScanLoop_cons_skip hs hdec hidx hlt]
        exact ih suffix o.value lb acc hpre'
      · rw [depositScanLoop_cons_emit hs hdec hidx hlt]
        exact ih suffix o.value (some e.hashblock) _ hpre'

theorem depositScanLoop_monotone_sum (decode : String → DecodeResult)
    (start : Option BlockHash) (f : Deposit → Nat) :
    ∀ (ds : List Deposit) (lt : Nat) (lb : Option BlockHash)
      (acc : List DepositInfo),
      (∀ d ∈ ds, candTotal decode d = some (f d)) →
      (∀ d ∈ ds, start ≠ some d.hashblock) →
      List.Chain (· ≤ ·) lt (ds.map f) →
      ∃ infos lb'',
        depositScanLoop decode start lt lb acc ds = .ok (acc ++ infos) lb'' ∧
        infos.length = ds.length ∧
        (infos.map fun i => i.output.value).sum
          = (ds.map f).getLastD lt - lt := by
  intro ds
  induction ds with
  | nil =>
    intro lt lb acc _ _ _
    exact ⟨[], lb, by simp [depositScanLoop], rfl, by simp⟩
  | cons d rest ih =>
    intro lt lb acc hdec hstart hchain
    obtain ⟨tx, o, hdecEq, hidx, hval⟩ :=
      candTotal_eq_some (hdec d (List.mem_cons_self d rest))
    have hne : start ≠ some d.hashblock :=
      hstart d (List.mem_cons_self d rest)
    rw [List.map_cons] at hchain
    cases hchain with
    | cons hab hrest =>
      have hab' : lt ≤ f d := hab
      have hnlt : ¬ o.value < lt := by rw [hval]; omega
      have hlast : f d ≤ (rest.map f).getLastD (f d) :=
        chain_le_getLastD (rest.map f) (f d) hrest
      obtain ⟨infos, lb'', heq, hlen, hsum⟩ := ih o.value (some d.hashblock)
        (acc ++ [{ block_hash := d.hashblock, tx_index := d.ntx,
                   outpoint := { txid := tx.txid, vout := d.nburnindex },
                   output := { address := d.strdest,
                               value := o.value - lt } }])
        (fun x hx => hdec x (List.mem_cons_of_mem d hx))
        (fun x hx => hstart x (List.mem_cons_of_mem d hx))
        (by rw [hval]; exact hrest)
      refine ⟨{ block_hash := d.hashblock, tx_index := d.ntx,
                outpoint := { txid := tx.txid, vout := d.nburnindex },
                output := { address := d.strdest,
                            value := o.value - lt } } :: infos, lb'', ?_, ?_, ?_⟩
      · rw [depositScanLoop_cons_emit hne hdecEq hidx hnlt, heq]
        simp
      · simpa using hlen
      · have hproj : (({ block_hash := d.hashblock, tx_index := d.ntx,
                         outpoint := { txid := tx.txid, vout := d.nburnindex },
                         output := { address := d.strdest,
                                     value := o.value - lt } } :
                DepositInfo) :: infos).map (fun i => i.output.value)
            = (o.value - lt) :: infos.map (fun i => i.output.value) := by
          simp
        rw [hproj, List.sum_cons, hsum, List.map_cons, List.getLastD_cons, hval]
        omega

/-- Claim C7: `get_withdrawal_bundle_statuses` returns exactly the
spent-withdrawal entries whose `nsidechain` equals the configured
sidechain number, each paired with `Confirmed` and in source order,
followed by all failed-withdrawal entries paired with `Failed` in
source order, with no deduplication; for sidechain 1, spent
`[(A,1),(B,2)]` and failed `[(C,1)]` yield `[(A, Confirmed), (C, Failed)]`. -/
theorem get_withdrawal_bundle_statuses_spec :
    (∀ (dc : Drivechain) (spent : List SpentWithdrawal)
        (failed : List FailedWithdrawal),
      dc.get_withdrawal_bundle_statuses spent failed =
        (spent.filter fun s => s.nsidechain == dc.sidechain_number).map
          (fun s => (s.hash, WithdrawalBundleStatus.confirmed))
        ++ failed.map (fun f => (f.hash, WithdrawalBundleStatus.failed))) ∧
    dcEx.get_withdrawal_bundle_statuses
        [⟨1, 10, 100⟩, ⟨2, 20, 200⟩] [⟨1, 30⟩] =
      [(10, WithdrawalBundleStatus.confirmed),
       (30, WithdrawalBundleStatus.failed)] := by
  constructor
  · intro dc spent failed
    simp [Drivechain.get_withdrawal_bundle_statuses, spent_foldl_eq,
      failed_foldl_eq]
  · decide

/-- Claim C2: `verify_bmm` returns `Ok(true)` whenever the endpoint's
`verifybmm` call succeeds; returns `Ok(false)` exactly when the endpoint
answers with an application error of code -1 (the generic server-error
code) whose message is exactly "h* not found in block"; and returns an
`Error` for every other application error or transport failure. -/
theorem verify_bmm_spec (dc : Drivechain) (resp : Except JsonrpseeError Unit) :
    (resp = .ok () → dc.verify_bmm resp = .ok true) ∧
    (dc.verify_bmm resp = .ok false ↔
      resp = .error (.call (-1) "h* not found in block")) ∧
    (∀ code msg, resp = .error (.call code msg) →
      ¬(code = -1 ∧ msg = "h* not found in block") →
      dc.verify_bmm resp = .error (.jsonrpsee (.call code msg) dc.main_addr)) ∧
    (resp = .error .other →
      dc.verify_bmm resp = .error (.jsonrpsee .other dc.main_addr)) := by
  refine ⟨?_, ?_, ?_, ?_⟩
  · rintro rfl; rfl
  · cases resp with
    | ok u => simp [Drivechain.verify_bmm]
    | error e =>
      cases e with
      | call code msg =>
        simp only [Drivechain.verify_bmm]
        by_cases hc : ErrorCode.fromCode code = ErrorCode.serverError (-1)
            ∧ msg = "h* not found in block"
        · rw [if_pos hc]
          have hcode : code = -1 := (fromCode_eq_serverError_neg_one code).1 hc.1
          simp [hcode, hc.2]
        · rw [if_neg hc]
          constructor
          · intro h; exact absurd h (by simp)
          · intro h
            injection h with h'
            injection h' with h1 h2
            exact absurd ⟨(fromCode_eq_serverError_neg_one code).2 h1, h2⟩ hc
      | other =>
        simp [Drivechain.verify_bmm]
  · rintro code msg rfl hno
    simp only [Drivechain.verify_bmm]
    rw [if_neg]
    rintro ⟨h1, h2⟩
    exact hno ⟨(fromCode_eq_serverError_neg_one code).1 h1, h2⟩
  · rintro rfl; rfl

/-- Witness for `verify_bmm_spec` at concrete inputs: a success, the
sentinel error, and an unrelated application error. -/
theorem verify_bmm_spec_witness :
    dcEx.verify_bmm (.ok ()) = .ok true ∧
    dcEx.verify_bmm (.error (.call (-1) "h* not found in block")) = .ok false ∧
    dcEx.verify_bmm (.error (.call 5 "boom")) =
      .error (.jsonrpsee (.call 5 "boom") dcEx.main_addr) ∧
    dcEx.verify_bmm (.error .other) =
      .error (.jsonrpsee .other dcEx.main_addr) :=
  ⟨(verify_bmm_spec dcEx (.ok ())).1 rfl,
   (verify_bmm_spec dcEx (.error (.call (-1) "h* not found in block"))).2.1.2 rfl,
   (verify_bmm_spec dcEx (.error (.call 5 "boom"))).2.2.1 5 "boom" rfl (by simp),
   (verify_bmm_spec dcEx (.error .other)).2.2.2 rfl⟩

theorem pollLoop_none (getblockResp : Nat → Except JsonrpseeError Block) :
    ∀ (fuel m : Nat),
      (∀ k, m ≤ k → k < m + fuel →
        ∃ b, getblockResp k = .ok b ∧ b.nextblockhash = none) →
      pollLoop getblockResp fuel m = none := by
  intro fuel
  induction fuel with
  | zero => intro m _; rfl
  | succ f ih =>
    intro m h
    obtain ⟨b, hb, hnone⟩ := h m (le_refl m) (by omega)
    simp only [pollLoop, hb, hnone]
    exact ih (m + 1) (fun k hk1 hk2 => h k (by omega) (by omega))

theorem pollLoop_stops (getblockResp : Nat → Except JsonrpseeError Block)
    (b : Block) (h' : BlockHash) :
    ∀ (j m : Nat),
      (∀ k, m ≤ k → k < m + j →
        ∃ bk, getblockResp k = .ok bk ∧ bk.nextblockhash = none) →
      getblockResp (m + j) = .ok b → b.nextblockhash = some h' →
      ∀ fuel, j < fuel → pollLoop getblockResp fuel m = some (.ok h') := by
  intro j
  induction j with
  | zero =>
    intro m _ hn hnb fuel hf
    obtain ⟨f, rfl⟩ : ∃ f, fuel = f + 1 := ⟨fuel - 1, by omega⟩
    rw [Nat.add_zero] at hn
    simp [pollLoop, hn, hnb]
  | succ j ih =>
    intro m hwin hn hnb fuel hf
    obtain ⟨f, rfl⟩ : ∃ f, fuel = f + 1 := ⟨fuel - 1, by omega⟩
    obtain ⟨bm, hbm, hbmn⟩ := hwin m (le_refl m) (by omega)
    simp only [pollLoop, hbm, hbmn]
    exact ih (m + 1) (fun k hk1 hk2 => hwin k (by omega) (by omega))
      (by rw [show m + 1 + j = m + (j + 1) from by omega]; exact hn)
      hnb f (by omega)

/-- Claim C3: `verify_bmm_next_block` does not return while every polled
`getblock` response lacks a `nextblockhash`; once poll iteration `n`
observes a successor it terminates (for any fuel beyond `n`, independent
of the poll interval, which only delays the sleeps), returning the pair
of the single `verify_bmm` check against that successor and the
successor's hash — so any `getblock` or `verify_bmm` error is
propagated through that result. -/
theorem verify_bmm_next_block_spec (dc : Drivechain)
    (getblockResp : Nat → Except JsonrpseeError Block)
    (verifybmmResp : BlockHash → Except JsonrpseeError Unit)
    (n : Nat) (b : Block) (h' : BlockHash)
    (hbefore : ∀ k, k < n →
      ∃ bk, getblockResp k = .ok bk ∧ bk.nextblockhash = none)
    (hn : getblockResp n = .ok b) (hnb : b.nextblockhash = some h') :
    (∀ fuel, fuel ≤ n →
      dc.verify_bmm_next_block getblockResp verifybmmResp fuel = none) ∧
    (∀ fuel, n < fuel →
      dc.verify_bmm_next_block getblockResp verifybmmResp fuel =
        some ((dc.verify_bmm (verifybmmResp h')).map fun res => (res, h'))) := by
  constructor
  · intro fuel hf
    have hnone : pollLoop getblockResp fuel 0 = none :=
      pollLoop_none getblockResp fuel 0 (fun k _ hk2 => hbefore k (by omega))
    simp [Drivechain.verify_bmm_next_block, hnone]
  · intro fuel hf
    have hstop : pollLoop getblockResp fuel 0 = some (.ok h') :=
      pollLoop_stops getblockResp b h' n 0
        (fun k _ hk2 => hbefore k (by omega))
        (by simpa using hn) hnb fuel hf
    simp [Drivechain.verify_bmm_next_block, hstop]

/-- Witness for `verify_bmm_next_block_spec`: with one successor-free
poll the call has not returned at fuel 1, and returns the verified pair
at fuel 2. -/
theorem verify_bmm_next_block_spec_witness :
    dcEx.verify_bmm_next_block getRespEx (fun _ => .ok ()) 1 = none ∧
    dcEx.verify_bmm_next_block getRespEx (fun _ => .ok ()) 2 =
      some (.ok (true, 101)) := by
  have h := verify_bmm_next_block_spec dcEx getRespEx (fun _ => .ok ())
    1 ⟨100, some 101⟩ 101
    (by
      intro k hk
      have hk0 : k = 0 := by omega
      subst hk0
      exact ⟨⟨100, none⟩, rfl, rfl⟩)
    rfl rfl
  exact ⟨h.1 1 le_rfl, by rw [h.2 2 (by omega)]; rfl⟩

/-- Claim C9 (amended): `get_block_commitments` turns a block-lookup
application error with code -1 and message exactly "Block not found"
into the typed outcome `Ok(Err(BlockNotFoundError(hash)))` and
propagates every other error as an `Error`; but the `getblock` calls
inside `verify_bmm_next_block` propagate every error — the
block-not-found application error included — as `Error::Jsonrpsee`. -/
theorem block_not_found_handling (dc : Drivechain) (main_hash : BlockHash)
    (resp : Except JsonrpseeError (List (Nat × BlockCommitment))) :
    (∀ commitments, resp = .ok commitments →
      dc.get_block_commitments main_hash resp = .ok (.ok commitments)) ∧
    (resp = .error (.call (-1) "Block not found") →
      dc.get_block_commitments main_hash resp = .ok (.error ⟨main_hash⟩)) ∧
    (∀ code msg, resp = .error (.call code msg) →
      ¬(code = -1 ∧ msg = "Block not found") →
      dc.get_block_commitments main_hash resp =
        .error (.jsonrpsee (.call code msg) dc.main_addr)) ∧
    (resp = .error .other →
      dc.get_block_commitments main_hash resp =
        .error (.jsonrpsee .other dc.main_addr)) ∧
    (∀ (getblockResp : Nat → Except JsonrpseeError Block)
        (verifybmmResp : BlockHash → Except JsonrpseeError Unit)
        (e : JsonrpseeError) (fuel : Nat),
      getblockResp 0 = .error e →
      dc.verify_bmm_next_block getblockResp verifybmmResp (fuel + 1) =
        some (.error (.jsonrpsee e dc.main_addr))) := by
  refine ⟨?_, ?_, ?_, ?_, ?_⟩
  · rintro commitments rfl; rfl
  · rintro rfl; rfl
  · rintro code msg rfl hno
    simp only [Drivechain.get_block_commitments]
    rw [if_neg]
    rintro ⟨h1, h2⟩
    exact hno ⟨(fromCode_eq_serverError_neg_one code).1 h1, h2⟩
  · rintro rfl; rfl
  · intro getblockResp verifybmmResp e fuel he
    simp [Drivechain.verify_bmm_next_block, pollLoop, he]

/-- Witness for `block_not_found_handling` at concrete inputs. -/
theorem block_not_found_handling_witness :
    dcEx.get_block_commitments 7 (.ok [(0, .sidechainProposal)]) =
      .ok (.ok [(0, .sidechainProposal)]) ∧
    dcEx.get_block_commitments 7 (.error (.call (-1) "Block not found")) =
      .ok (.error ⟨7⟩) ∧
    dcEx.get_block_commitments 7 (.error (.call 2 "oops")) =
      .error (.jsonrpsee (.call 2 "oops") dcEx.main_addr) ∧
    dcEx.verify_bmm_next_block
        (fun _ => .error (.call (-1) "Block not found")) (fun _ => .ok ()) 1 =
      some (.error (.jsonrpsee (.call (-1) "Block not found") dcEx.main_addr)) :=
  ⟨(block_not_found_handling dcEx 7 (.ok [(0, .sidechainProposal)])).1 _ rfl,
   (block_not_found_handling dcEx 7
      (.error (.call (-1) "Block not found"))).2.1 rfl,
   (block_not_found_handling dcEx 7 (.error (.call 2 "oops"))).2.2.1 2 "oops"
      rfl (by simp),
   (block_not_found_handling dcEx 7 (.ok [])).2.2.2.2 _ _ _ 0 rfl⟩

/-- Counterexample to claim C9 as stated: when the `getblock` call
inside `verify_bmm_next_block` answers with the application error
(code -1, message "Block not found"), the call returns an
`Error::Jsonrpsee` — not a typed `Ok(Err(BlockNotFoundError))`
outcome. -/
theorem block_not_found_counterexample :
    dcEx.verify_bmm_next_block
        (fun _ => .error (.call (-1) "Block not found")) (fun _ => .ok ()) 1 =
      some (.error (.jsonrpsee (.call (-1) "Block not found")
        dcEx.main_addr)) := by
  rfl

/-- Claim C5: a candidate whose block hash equals the given start bound
never produces a `DepositInfo`, regardless of its burn-output total:
the scan sets `last_total` to that candidate's burn-output value and
continues, and no emitted `DepositInfo` ever carries the start bound's
block hash. -/
theorem start_candidate_never_produces_deposit :
    (∀ (decode : String → DecodeResult) (s : BlockHash) (d : Deposit)
        (tx : Tx) (o : TxOut) (lt : Nat) (lb : Option BlockHash)
        (acc : List DepositInfo) (ds : List Deposit),
      decode d.txhex = .ok tx → tx.output[d.nburnindex]? = some o →
      s = d.hashblock →
      depositScanLoop decode (some s) lt lb acc (d :: ds)
        = depositScanLoop decode (some s) o.value lb acc ds) ∧
    (∀ (dc : Drivechain) (decode : String → DecodeResult) (s : BlockHash)
        (ds : List Deposit) (infos : List DepositInfo)
        (lb' : Option BlockHash),
      dc.get_deposit_outputs decode ds (some s) = .ok infos lb' →
      ∀ i ∈ infos, i.block_hash ≠ s) := by
  constructor
  · intro decode s d tx o lt lb acc ds hdec hidx hs
    exact depositScanLoop_cons_start (by rw [hs]) hdec hidx lt lb acc ds
  · intro dc decode s ds infos lb' h
    exact depositScanLoop_no_start_emit decode s ds 0 none [] infos lb' h
      (by simp)

/-- Witness for `start_candidate_never_produces_deposit`: the candidate
in block 2 is skipped when the start bound is block 2, and the scan of
blocks 1-2 with start bound 2 emits no deposit with block hash 2. -/
theorem start_candidate_never_produces_deposit_witness :
    depositScanLoop decodeEx (some 2) 5 none [] [dEx2]
      = depositScanLoop decodeEx (some 2) 20 none [] [] ∧
    (⟨1, 0, ⟨21, 0⟩, ⟨"addr1", 10⟩⟩ : DepositInfo).block_hash ≠ 2 := by
  constructor
  · exact start_candidate_never_produces_deposit.1 decodeEx 2 dEx2
      ⟨22, [⟨20⟩]⟩ ⟨20⟩ 5 none [] [] (by decide) (by decide) (by decide)
  · exact start_candidate_never_produces_deposit.2 dcEx decodeEx 2
      [dEx1, dEx2] [⟨1, 0, ⟨21, 0⟩, ⟨"addr1", 10⟩⟩] (some 1) (by decide)
      ⟨1, 0, ⟨21, 0⟩, ⟨"addr1", 10⟩⟩ (by decide)

/-- Claim C6: a candidate whose burn-output total is strictly less than
`last_total` produces no `DepositInfo` yet still updates `last_total` to
that smaller total, and the returned `deposit_block_hash` is the block
hash of the last candidate for which a `DepositInfo` was emitted (`None`
when no `DepositInfo` was emitted). -/
theorem lower_total_skipped_and_watermark :
    (∀ (decode : String → DecodeResult) (start : Option BlockHash)
        (d : Deposit) (tx : Tx) (o : TxOut) (lt : Nat)
        (lb : Option BlockHash) (acc : List DepositInfo)
        (ds : List Deposit),
      start ≠ some d.hashblock → decode d.txhex = .ok tx →
      tx.output[d.nburnindex]? = some o → o.value < lt →
      depositScanLoop decode start lt lb acc (d :: ds)
        = depositScanLoop decode start o.value lb acc ds) ∧
    (∀ (dc : Drivechain) (decode : String → DecodeResult)
        (ds : List Deposit) (start : Option BlockHash)
        (infos : List DepositInfo) (lb' : Option BlockHash),
      dc.get_deposit_outputs decode ds start = .ok infos lb' →
      lb' = infos.getLast?.map (fun i => i.block_hash)) := by
  constructor
  · intro decode start d tx o lt lb acc ds hs hdec hidx hlt
    exact depositScanLoop_cons_skip hs hdec hidx hlt lb acc ds
  · intro dc decode ds start infos lb' h
    exact depositScanLoop_watermark decode start ds 0 none [] infos lb'
      (by simp) h

/-- Witness for `lower_total_skipped_and_watermark`: a candidate with
total 10 against `last_total` 15 is skipped (updating the total), and a
one-candidate scan returns the emitted deposit's block hash as
watermark. -/
theorem lower_total_skipped_and_watermark_witness :
    depositScanLoop decodeEx none 15 none [] [dEx1]
      = depositScanLoop decodeEx none 10 none [] [] ∧
    (some 1 : Option BlockHash)
      = ([(⟨1, 0, ⟨21, 0⟩, ⟨"addr1", 10⟩⟩ : DepositInfo)].getLast?).map
          (fun i => i.block_hash) := by
  constructor
  · exact lower_total_skipped_and_watermark.1 decodeEx none dEx1
      ⟨21, [⟨10⟩]⟩ ⟨10⟩ 15 none [] [] (by decide) (by decide) (by decide)
      (by decide)
  · exact lower_total_skipped_and_watermark.2 dcEx decodeEx [dEx1] none
      [⟨1, 0, ⟨21, 0⟩, ⟨"addr1", 10⟩⟩] (some 1) (by decide)

/-- Claim C4: a candidate whose burn-output total equals `last_total`
exactly (and whose block hash is not the start bound) is not skipped:
the scan emits a `DepositInfo` with value zero, keeps `last_total`, and
advances the watermark to that candidate's block hash; candidates with
totals 100, 100, 250 in blocks 1, 2, 3 and no start bound yield deposits
of values 100, 0, 150 and watermark block 3. -/
theorem equal_total_emits_zero_value :
    (∀ (decode : String → DecodeResult) (start : Option BlockHash)
        (d : Deposit) (tx : Tx) (o : TxOut) (lt : Nat)
        (lb : Option BlockHash) (acc : List DepositInfo)
        (ds : List Deposit),
      start ≠ some d.hashblock → decode d.txhex = .ok tx →
      tx.output[d.nburnindex]? = some o → o.value = lt →
      depositScanLoop decode start lt lb acc (d :: ds)
        = depositScanLoop decode start lt (some d.hashblock)
            (acc ++ [{ block_hash := d.hashblock, tx_index := d.ntx,
                       outpoint := { txid := tx.txid, vout := d.nburnindex },
                       output := { address := d.strdest,
                                   value := 0 } }]) ds) ∧
    dcEx.get_deposit_outputs decodeB [bEx1, bEx2, bEx3] none =
      .ok [⟨1, 0, ⟨11, 0⟩, ⟨"addr1", 100⟩⟩,
           ⟨2, 1, ⟨12, 0⟩, ⟨"addr2", 0⟩⟩,
           ⟨3, 2, ⟨13, 0⟩, ⟨"addr3", 150⟩⟩] (some 3) := by
  constructor
  · intro decode start d tx o lt lb acc ds hs hdec hidx heq
    have hge : ¬ o.value < lt := by omega
    have h := depositScanLoop_cons_emit hs hdec hidx hge lb acc ds
    rw [h, heq]
    simp
  · decide

/-- Witness for `equal_total_emits_zero_value`: the second candidate of
the example (total 100 against `last_total` 100) emits a zero-value
deposit and advances the watermark to block 2. -/
theorem equal_total_emits_zero_value_witness :
    depositScanLoop decodeB none 100 (some 1)
        [⟨1, 0, ⟨11, 0⟩, ⟨"addr1", 100⟩⟩] [bEx2]
      = depositScanLoop decodeB none 100 (some 2)
          [⟨1, 0, ⟨11, 0⟩, ⟨"addr1", 100⟩⟩,
           ⟨2, 1, ⟨12, 0⟩, ⟨"addr2", 0⟩⟩] [] :=
  equal_total_emits_zero_value.1 decodeB none bEx2 ⟨12, [⟨100⟩]⟩ ⟨100⟩
    100 (some 1) [⟨1, 0, ⟨11, 0⟩, ⟨"addr1", 100⟩⟩] []
    (by decide) (by decide) (by decide) rfl

/-- Claim C8: if any candidate's raw transaction fails hex decoding or
consensus decoding, and every candidate before it decodes cleanly (so
the scan reaches it without panicking), `get_deposit_outputs` fails the
entire call with the corresponding decode error and produces no partial
`DepositInfo` list. -/
theorem decode_failure_fails_entire_call (dc : Drivechain)
    (decode : String → DecodeResult) (start : Option BlockHash)
    (pre : List Deposit) (d : Deposit) (rest : List Deposit)
    (hpre : ∀ e ∈ pre, (candTotal decode e).isSome) :
    (decode d.txhex = .hexErr →
      dc.get_deposit_outputs decode (pre ++ d :: rest) start = .hexError) ∧
    (decode d.txhex = .consensusErr →
      dc.get_deposit_outputs decode (pre ++ d :: rest) start
        = .consensusDecodeError) := by
  obtain ⟨lt', lb', acc', hstep⟩ :=
    depositScanLoop_prefix_step decode start pre (d :: rest) 0 none [] hpre
  constructor <;> intro hdec
  · unfold Drivechain.get_deposit_outputs
    rw [hstep]
    simp [depositScanLoop, hdec]
  · unfold Drivechain.get_deposit_outputs
    rw [hstep]
    simp [depositScanLoop, hdec]

/-- Witness for `decode_failure_fails_entire_call`: a malformed-hex
candidate and a consensus-undecodable candidate each fail the whole
scan, even after a preceding valid candidate. -/
theorem decode_failure_fails_entire_call_witness :
    dcEx.get_deposit_outputs decodeEx [dEx1, ⟨4, 0, 3, "addrX", "zz"⟩] none
      = .hexError ∧
    dcEx.get_deposit_outputs decodeEx [dEx1, ⟨4, 0, 3, "addrX", "c1"⟩] none
      = .consensusDecodeError := by
  constructor
  · exact (decode_failure_fails_entire_call dcEx decodeEx none [dEx1]
      ⟨4, 0, 3, "addrX", "zz"⟩ [] (by decide)).1 (by decide)
  · exact (decode_failure_fails_entire_call dcEx decodeEx none [dEx1]
      ⟨4, 0, 3, "addrX", "c1"⟩ [] (by decide)).2 (by decide)

/-- Claim C10: `get_deposit_outputs` indexes the decoded transaction's
output list by the candidate's `nburnindex` without a bounds check (in
both the start-block branch and the normal branch): a reachable
candidate whose `nburnindex` is out of range for its decoded transaction
makes the scan panic rather than return a result or an error. -/
theorem out_of_range_burn_index_panics (dc : Drivechain)
    (decode : String → DecodeResult) (start : Option BlockHash)
    (pre : List Deposit) (d : Deposit) (rest : List Deposit) (tx : Tx)
    (hpre : ∀ e ∈ pre, (candTotal decode e).isSome)
    (hdec : decode d.txhex = .ok tx)
    (hidx : tx.output[d.nburnindex]? = none) :
    dc.get_deposit_outputs decode (pre ++ d :: rest) start = .panicked := by
  obtain ⟨lt', lb', acc', hstep⟩ :=
    depositScanLoop_prefix_step decode start pre (d :: rest) 0 none [] hpre
  unfold Drivechain.get_deposit_outputs
  rw [hstep]
  exact depositScanLoop_cons_panic start hdec hidx lt' lb' acc' rest

/-- Witness for `out_of_range_burn_index_panics`: a candidate with burn
index 1 against a single-output transaction panics the scan after one
valid candidate. -/
theorem out_of_range_burn_index_panics_witness :
    dcEx.get_deposit_outputs decodeEx [dEx1, ⟨5, 1, 4, "addrY", "t1"⟩] none
      = .panicked :=
  out_of_range_burn_index_panics dcEx decodeEx none [dEx1]
    ⟨5, 1, 4, "addrY", "t1"⟩ [] ⟨21, [⟨10⟩]⟩
    (by decide) (by decide) (by decide)

/-- Claim C1 (amended): for every deposit-candidate list whose
burn-output totals are strictly increasing and whose start-bound
matches, if any, occur only at the first candidate, the scan emits one
`DepositInfo` per non-start candidate and the emitted values sum to the
final cumulative total minus the initial total (the first candidate's
total when the start bound matches it, zero otherwise). -/
theorem deposit_values_sum_telescopes (dc : Drivechain)
    (decode : String → DecodeResult) (start : Option BlockHash)
    (ds : List Deposit) (f : Deposit → Nat)
    (hdec : ∀ d ∈ ds, candTotal decode d = some (f d))
    (hchain : List.Chain' (· < ·) (ds.map f))
    (hstart : ∀ d ∈ ds.drop 1, start ≠ some d.hashblock) :
    ∃ infos lb',
      dc.get_deposit_outputs decode ds start = .ok infos lb' ∧
      infos.length + scanStartSkips start ds = ds.length ∧
      (infos.map fun i => i.output.value).sum
        = (ds.map f).getLastD 0 - scanInitialTotal f start ds := by
  cases ds with
  | nil =>
    exact ⟨[], none,
      by simp [Drivechain.get_deposit_outputs, depositScanLoop],
      by simp [scanStartSkips],
      by simp [scanInitialTotal]⟩
  | cons d rest =>
    obtain ⟨tx, o, hdecEq, hidx, hval⟩ :=
      candTotal_eq_some (hdec d (List.mem_cons_self d rest))
    have hdecRest : ∀ x ∈ rest, candTotal decode x = some (f x) :=
      fun x hx => hdec x (List.mem_cons_of_mem d hx)
    have hstartRest : ∀ x ∈ rest, start ≠ some x.hashblock := by
      intro x hx
      exact hstart x (by simpa using hx)
    have hchainRest : List.Chain (· < ·) (f d) (rest.map f) := by
      rw [List.map_cons] at hchain
      exact hchain
    by_cases hs : start = some d.hashblock
    · have hstep := depositScanLoop_cons_start hs hdecEq hidx 0 none [] rest
      obtain ⟨infos, lb'', heq, hlen, hsum⟩ :=
        depositScanLoop_monotone_sum decode start f rest o.value none []
          hdecRest hstartRest
          (by rw [hval]; exact hchainRest.imp fun a b hab => le_of_lt hab)
      refine ⟨infos, lb'', ?_, ?_, ?_⟩
      · unfold Drivechain.get_deposit_outputs
        rw [hstep, heq]
        simp
      · simp [scanStartSkips, hs, List.length_cons, hlen]
      · rw [List.map_cons, List.getLastD_cons]
        have hinit : scanInitialTotal f start (d :: rest) = f d := by
          simp [scanInitialTotal, hs]
        rw [hinit, hsum, hval]
    · have hstartAll : ∀ x ∈ d :: rest, start ≠ some x.hashblock := by
        intro x hx
        rcases List.mem_cons.1 hx with rfl | hx
        · exact hs
        · exact hstartRest x hx
      have hchain0 : List.Chain (· ≤ ·) 0 ((d :: rest).map f) := by
        rw [List.map_cons]
        exact List.Chain.cons (Nat.zero_le _)
          (hchainRest.imp fun a b hab => le_of_lt hab)
      obtain ⟨infos, lb'', heq, hlen, hsum⟩ :=
        depositScanLoop_monotone_sum decode start f (d :: rest) 0 none []
          hdec hstartAll hchain0
      refine ⟨infos, lb'', ?_, ?_, ?_⟩
      · unfold Drivechain.get_deposit_outputs
        rw [heq]
        simp
      · simp [scanStartSkips, hs, hlen]
      · rw [hsum]
        simp [scanInitialTotal, hs]

/-- Witness for `deposit_values_sum_telescopes`: totals 10, 20, 30 with
the start bound matching the first candidate. -/
theorem deposit_values_sum_telescopes_witness :
    ∃ infos lb',
      dcEx.get_deposit_outputs decodeEx [dEx1, dEx2, dEx3] (some 1)
        = .ok infos lb' ∧
      infos.length + scanStartSkips (some 1) [dEx1, dEx2, dEx3] = 3 ∧
      (infos.map fun i => i.output.value).sum
        = ([dEx1, dEx2, dEx3].map fun d => 10 * d.hashblock).getLastD 0
          - scanInitialTotal (fun d => 10 * d.hashblock) (some 1)
              [dEx1, dEx2, dEx3] :=
  deposit_values_sum_telescopes dcEx decodeEx (some 1) [dEx1, dEx2, dEx3]
    (fun d => 10 * d.hashblock) (by decide)
    (by simp [dEx1, dEx2, dEx3, List.chain'_cons, List.chain'_singleton])
    (by decide)

/-- Counterexample to claim C1 as stated: with strictly increasing burn
totals 10, 20, 30 and the start bound matching the SECOND candidate, the
emitted deposit values are 10 and 10 (the skipped candidate forfeits
only the 20-to-10 delta), so their sum is 20, not the claimed final
total minus start-candidate total 30 - 20 = 10. -/
theorem deposit_values_sum_counterexample :
    dcEx.get_deposit_outputs decodeEx [dEx1, dEx2, dEx3] (some 2) =
      .ok [⟨1, 0, ⟨21, 0⟩, ⟨"addr1", 10⟩⟩,
           ⟨3, 2, ⟨23, 0⟩, ⟨"addr3", 10⟩⟩] (some 3) ∧
    (([(⟨1, 0, ⟨21, 0⟩, ⟨"addr1", 10⟩⟩ : DepositInfo),
       ⟨3, 2, ⟨23, 0⟩, ⟨"addr3", 10⟩⟩].map fun i => i.output.value).sum
      ≠ 30 - 20) := by
  decide

end BitcoinJsonrpsee
